import Mathlib

/-!
Verification of the gomerkle library: a balanced binary Merkle tree, a Merkle
Mountain Range (MMR) composed of such trees, and a Sparse Merkle Tree (SMT)
over the full digest domain.

Shallow embedding conventions:
* a byte is a `Nat` (< 256 in all values the code produces), a byte string is a
  `List Nat`, and a digest (`[32]byte`) is a `List Nat` of length 32;
* the hash function `crypto/sha256.Sum256` is an abstract parameter
  `hf : List Nat → List Nat`; nothing in the library inspects digests other
  than comparing them byte-wise, extracting bits, and concatenating them, so
  every theorem is proved for an arbitrary `hf` (concrete instantiations are
  used for witnesses, and for counterexamples the relevant digest value is the
  actual SHA-256 digest of the named input, stated as explicit bytes);
* Go functions that can panic (nil-pointer dereference, slice index out of
  range) are embedded with `Option`: `none` models the panic, and each such
  spot is marked in a comment;
* Go loops become structural recursions over the loop counter or fuel.
-/

set_option maxRecDepth 40000

namespace gomerkle

/-- `merkle_node` from merkle_mountain_range.go: a digest plus `left`/`right`
child pointers.  Every node the library constructs either has both children
nil (a leaf, or an SMT "virtual"/default node) or both children non-nil, so
the embedding uses a two-constructor tree instead of two `Option` pointers. -/
inductive merkle_node : Type where
  | leaf (data : List Nat)
  | inner (data : List Nat) (left right : merkle_node)
deriving DecidableEq, Repr

/-- The `data` field of a node. -/
def merkle_node.data : merkle_node → List Nat
  | .leaf d => d
  | .inner d _ _ => d

/-- `merkle_node.size`: number of leaves below a node (leaf counts 1). -/
def merkle_node.size : merkle_node → Nat
  | .leaf _ => 1
  | .inner _ l r => l.size + r.size

/-- The multiset of leaf digests of a tree, in left-to-right order. -/
def leafHashes : merkle_node → List (List Nat)
  | .leaf d => [d]
  | .inner _ l r => leafHashes l ++ leafHashes r

/-- Structural invariant of every tree the library constructs: each internal
digest is the hash of the concatenation of its children's digests. -/
def hashOk (hf : List Nat → List Nat) : merkle_node → Bool
  | .leaf _ => true
  | .inner d l r =>
    (d == hf (merkle_node.data l ++ merkle_node.data r)) && hashOk hf l && hashOk hf r

/-- A perfect binary tree: the "complete Merkle Tree over a power-of-two
number of leaves" of the specification (both subtrees perfect and of equal
leaf count). -/
def isPerfect : merkle_node → Bool
  | .leaf _ => true
  | .inner _ l r => isPerfect l && isPerfect r && (merkle_node.size l == merkle_node.size r)

section MerkleTree

variable (hf : List Nat → List Nat)

/-- The recursion of `NewMt`, made structural on a fuel argument so that it
reduces inside the kernel; every recursive call strictly shrinks the list, so
any `fuel ≥ data.length` gives the recursion of the Go code
(`NewMtAux_irrel` below). -/
def NewMtAux : Nat → List (List Nat) → Option merkle_node
  | 0, _ => none
  | _ + 1, [] => none
  | _ + 1, [x] => some (.leaf (hf x))
  | fuel + 1, x :: y :: rest =>
    match NewMtAux fuel ((x :: y :: rest).take ((x :: y :: rest).length / 2)),
          NewMtAux fuel ((x :: y :: rest).drop ((x :: y :: rest).length / 2)) with
    | some l, some r => some (.inner (hf (merkle_node.data l ++ merkle_node.data r)) l r)
    | _, _ => none

/-- `NewMt`: returns `none` for empty input (Go returns nil), a leaf holding
`hash(item)` for a single item, and otherwise splits the data at `len/2`,
builds the two halves recursively and hashes the two child digests.  The
recursive calls are always on non-empty lists, so the `none, _` fallthrough
(which would be a nil dereference in Go) is unreachable. -/
def NewMt (data : List (List Nat)) : Option merkle_node :=
  NewMtAux hf data.length data

/-- `merkle_node.search`: find a path (leaf first, root last) from the root to
a leaf whose digest equals `hash(item)`; the left subtree is searched first. -/
def search : merkle_node → List Nat → Option (List merkle_node)
  | .leaf d, item => if d = hf item then some [.leaf d] else none
  | .inner d l r, item =>
    match search l item with
    | some p => some (p ++ [.inner d l r])
    | none =>
      match search r item with
      | some p => some (p ++ [.inner d l r])
      | none => none

/-- The loop body of `MerkleTree.Prove`, acting on the reversed search path
(root first).  At each step Go compares the data of the current node's
children with the data of the next node on the path and records the sibling
digest and its side; if neither child matches nothing is recorded.  If the
current node is a leaf, Go dereferences a nil child pointer: `none`. -/
def proveRev : merkle_node → List merkle_node → Option (List (List Nat) × List Bool)
  | _, [] => some ([], [])
  | .leaf _, _ :: _ => none
  | .inner _ l r, curr :: rest =>
    if merkle_node.data l = merkle_node.data curr then
      (proveRev curr rest).map fun p => (merkle_node.data r :: p.1, false :: p.2)
    else if merkle_node.data r = merkle_node.data curr then
      (proveRev curr rest).map fun p => (merkle_node.data l :: p.1, true :: p.2)
    else
      proveRev curr rest

/-- `MerkleTree.Prove`.  Go indexes `path[len(path)-1]` without checking the
result of `search`, so an absent item is a slice-index panic, modelled by
`none`; for a found item the walk from the root assembles the proof with the
root-level sibling first. -/
def Prove (t : merkle_node) (item : List Nat) : Option (List (List Nat) × List Bool) :=
  match search hf t item with
  | none => none
  | some p =>
    match p.reverse with
    | [] => none
    | n :: rest => proveRev n rest

/-- The accumulator recomputation shared by all verifiers: starting from a
given leaf digest, fold the recorded (sibling, side) steps from the leaf-level
entry (last) up to the root-level entry (first). -/
def verifyAcc (start : List Nat) (steps : List (List Nat × Bool)) : List Nat :=
  steps.foldr (fun pr acc => if pr.2 then hf (pr.1 ++ acc) else hf (acc ++ pr.1)) start

/-- `MerkleProof.Verify`: recompute the root from `hash(item)` and compare.
Go reads `proof.left[i]` for each index of `proof.hashes`; in every proof the
library produces the two lists have equal length, which the zip reflects. -/
def MerkleVerify (hashes : List (List Nat)) (left : List Bool) (root item : List Nat) : Bool :=
  verifyAcc hf (hf item) (hashes.zip left) == root

end MerkleTree

section MountainRange

variable (hf : List Nat → List Nat)

/-- The loop of `NewMmr`, iterating the bit index `i` of `n = len(data)`
downwards to 0: for each set bit, the next `2^i` items are consumed into one
Merkle tree.  Go appends the `*MerkleTree` returned by `NewMt` unchecked; in
`NewMmr` the chunk is never empty so the pointer is never nil, and
`Option.toList` keeps exactly the built trees. -/
def mmrLoop (n : Nat) : Nat → List (List Nat) → List merkle_node
  | 0, data => if n.testBit 0 then (NewMt hf (data.take 1)).toList else []
  | i + 1, data =>
    if n.testBit (i + 1) then
      (NewMt hf (data.take (2 ^ (i + 1)))).toList ++ mmrLoop n i (data.drop (2 ^ (i + 1)))
    else
      mmrLoop n i data

/-- Structural floor base-2 logarithm (`Nat.log2` itself is defined by
well-founded recursion and does not reduce inside the kernel); any
`fuel ≥ n` computes `Nat.log2 n` (`log2Aux_eq` below). -/
def log2Aux : Nat → Nat → Nat
  | 0, _ => 0
  | fuel + 1, n => if 2 ≤ n then log2Aux fuel (n / 2) + 1 else 0

/-- `NewMmr`: one peak per set bit of `n`, from the most significant bit down.
Go computes the top bit index as `int(math.Log2(float64(n)))`, which equals
the floor base-2 logarithm of `n` for every `n ≥ 1` in the float-exact range;
for `n = 0` the Go conversion yields a negative value and the loop body never
runs, and starting the loop at `log2 0 = 0` produces the same empty peak list
because no bit of 0 is set. -/
def NewMmr (data : List (List Nat)) : List merkle_node :=
  mmrLoop hf data.length (log2Aux data.length data.length) data

/-- `MerkleMountainRange.Peaks`: the root digests of the peaks, in order. -/
def Peaks (peaks : List merkle_node) : List (List Nat) :=
  peaks.map merkle_node.data

/-- `MerkleMountainRange.Prove`: delegate to the first peak whose `search`
succeeds; nil (= `none`) when no peak contains the item. -/
def MmrProve : List merkle_node → List Nat → Option (List (List Nat) × List Bool)
  | [], _ => none
  | t :: rest, item =>
    if (search hf t item).isSome then Prove hf t item else MmrProve rest item

/-- `MmrProof.Verify`: try the Merkle verification against each peak digest,
succeeding as soon as one verifies. -/
def MmrVerify (hashes : List (List Nat)) (left : List Bool) (peaks : List (List Nat))
    (item : List Nat) : Bool :=
  peaks.any fun pk => MerkleVerify hf hashes left pk item

/-- Go's in-place element removal `append(s[:k], s[k+1:]...)` performed on the
first `n` positions of the backing array `A`: positions `k .. n-2` receive the
following elements, and everything from position `n-1` on keeps its old value
(the removed slice only shrinks the length, not the backing array). -/
def goRemove (A : List merkle_node) (n k : Nat) : List merkle_node :=
  A.take k ++ (A.take n).drop (k + 1) ++ A.drop (n - 1)

/-- The `sizes` map of `merge_peaks`: tree size → index of the first
occurrence seen.  Entries are only added when the key is absent, so an
association list with first-match lookup is an exact model. -/
def lookupSize : List (Nat × Nat) → Nat → Option Nat
  | [], _ => none
  | (s, j) :: rest, k => if s = k then some j else lookupSize rest k

/-- One pass of `merge_peaks`: `for i, tree := range mmr.peaks` captured the
slice at pass start (`n0` iterations, `fuelI = n0 - i` remaining), while
`mmr.peaks` itself (the first `n` positions of the shared backing array `A`)
mutates in place on every merge.  `none` models the Go panics: reading
`mmr.peaks[j]` with `j ≥ n`, or re-slicing past the current length. -/
def mergePass (hf : List Nat → List Nat) :
    Nat → Nat → List merkle_node → List (Nat × Nat) → Nat → Bool →
    Option (List merkle_node × Nat × Bool)
  | 0, _, A, _, n, merged => some (A, n, merged)
  | fuelI + 1, i, A, sizes, n, merged =>
    match A[i]? with
    | none => none
    | some tree =>
      let s := merkle_node.size tree
      match lookupSize sizes s with
      | none => mergePass hf fuelI (i + 1) A (sizes ++ [(s, i)]) n merged
      | some j =>
        -- other := mmr.peaks[j] is read before the removals
        if j < n ∧ i + 1 ≤ n ∧ j + 1 ≤ n - 1 then
          match A[j]? with
          | none => none
          | some other =>
            let A1 := goRemove A n i
            let A2 := goRemove A1 (n - 1) j
            let newTree := merkle_node.inner
              (hf (merkle_node.data other ++ merkle_node.data tree)) other tree
            -- the final append writes at position n-2 of the backing array
            let A3 := A2.take (n - 2) ++ [newTree] ++ A2.drop (n - 1)
            mergePass hf fuelI (i + 1) A3 sizes (n - 1) true
        else none

/-- The outer loop of `merge_peaks`: run passes until one makes no merge.
Between passes the range expression is re-evaluated, so each pass starts from
the current peak list (`A.take n`); the fuel bounds the number of passes
(every merging pass shortens the list, so `length + 2` always suffices on the
states the library reaches; `none` models non-termination/corruption
otherwise). -/
def mergeLoop (hf : List Nat → List Nat) : Nat → List merkle_node → Option (List merkle_node)
  | 0, _ => none
  | fuel + 1, peaks =>
    match mergePass hf peaks.length 0 peaks [] peaks.length false with
    | none => none
    | some (A, n, merged) =>
      if merged then mergeLoop hf fuel (A.take n) else some (A.take n)

/-- `MerkleMountainRange.Insert`: build one tree from the batch, append it and
merge.  For an empty batch `NewMt` returns nil and `merge_peaks` dereferences
the nil peak (`tree.root.size()`): `none`.  (`merge_peaks` always returns
false — its result is the flag after the inner loop exits — so the
`for merge_peaks(mmr) {}` in `Insert` runs it exactly once.) -/
def Insert (items : List (List Nat)) (peaks : List merkle_node) :
    Option (List merkle_node) :=
  match NewMt hf items with
  | none => none
  | some t => mergeLoop hf (peaks.length + 2) (peaks ++ [t])

/-- Specification helper: the entries `(size, index)` that the scan of
`merge_peaks` records for a run of trees starting at position `i`, in scan
order. -/
def sizesEntries : List merkle_node → Nat → List (Nat × Nat)
  | [], _ => []
  | e :: E, i => (merkle_node.size e, i) :: sizesEntries E (i + 1)

/-- The MMR states the library can produce: an initial construction followed
by any number of successful `Insert` calls. -/
inductive ReachableMmr (hf : List Nat → List Nat) : List merkle_node → Prop where
  | base (data : List (List Nat)) : ReachableMmr hf (NewMmr hf data)
  | step (m : List merkle_node) (items : List (List Nat)) (m2 : List merkle_node) :
      ReachableMmr hf m → Insert hf items m = some m2 → ReachableMmr hf m2

end MountainRange

section SparseMerkleTree

/-- `DIGEST_SIZE` from the Go source. -/
def DIGEST_SIZE : Nat := 32

/-- The digit recursion of `big.Int.Bytes()`, structural on fuel (the value
strictly shrinks under division by 256, so any `fuel ≥ n` suffices). -/
def natToBytesAux : Nat → Nat → List Nat
  | 0, _ => []
  | fuel + 1, n => if n = 0 then [] else natToBytesAux fuel (n / 256) ++ [n % 256]

/-- `big.Int.Bytes()`: the minimal big-endian byte representation (empty for
0, and never with a leading zero byte). -/
def natToBytes (n : Nat) : List Nat :=
  natToBytesAux n n

/-- `bytes.Compare(a, b) <= 0`: lexicographic byte comparison, a strict
prefix comparing less than the longer string. -/
def goLe : List Nat → List Nat → Bool
  | [], _ => true
  | _ :: _, [] => false
  | a :: as, b :: bs => if a < b then true else if b < a then false else goLe as bs

variable (hf : List Nat → List Nat)

/-- `compute_default_digests`: `default[0]` is the hash of the empty value and
`default[h] = hash(default[h-1] ‖ default[h-1])`.  Go stores heights
`0 .. 8*DIGEST_SIZE - 1` in a map; this total function agrees on that range. -/
def default_digests : Nat → List Nat
  | 0 => hf []
  | h + 1 => hf (default_digests h ++ default_digests h)

/-- The zero value `[32]byte{}` that a Go map lookup at a missing key yields
(`default_digests[-1]` in `ProveNonIncl`). -/
def zeroDigest : List Nat := List.replicate DIGEST_SIZE 0

/-- `new_smt_inner`: an empty range collapses to the default node of its
height; at height 0 the node keeps `data[0]` (only the first digest of the
range); otherwise the range is bisected at `mid = (lo+hi)/2` and a digest `h`
goes left iff `bytes.Compare(h[:], mid.Bytes()) <= 0` — note that this
compares the full 32-byte digest against the *minimal* byte representation of
`mid`, exactly as the Go code does. -/
def new_smt_inner : List (List Nat) → Nat → Nat → Nat → merkle_node
  | [], _, _, height => .leaf (default_digests hf height)
  | d :: _, _, _, 0 => .leaf d
  | d :: ds, lo, hi, height + 1 =>
    let data := d :: ds
    let mid := (lo + hi) / 2
    let left_data := data.filter fun h => goLe h (natToBytes mid)
    let right_data := data.filter fun h => !goLe h (natToBytes mid)
    let l := new_smt_inner left_data lo mid height
    let r := new_smt_inner right_data mid hi height
    .inner (hf (merkle_node.data l ++ merkle_node.data r)) l r

/-- The sort `slices.SortFunc(hashed_data, bytes.Compare)` of `NewSmt`,
modelled as insertion sort with the same lexicographic order (the sorted
result is what the construction consumes; the Go sort is unstable, which can
only matter for equal digests). -/
def sortInsert (x : List Nat) : List (List Nat) → List (List Nat)
  | [] => [x]
  | y :: ys => if goLe x y then x :: y :: ys else y :: sortInsert x ys

/-- Sort a list of digests lexicographically. -/
def sortBytes : List (List Nat) → List (List Nat)
  | [] => []
  | x :: xs => sortInsert x (sortBytes xs)

/-- `NewSmt`: hash every item, sort the digests, and bisect the full range
`[0, 2^256 - 1]` from height `8*DIGEST_SIZE - 1 = 255`. -/
def NewSmt (data : List (List Nat)) : merkle_node :=
  new_smt_inner hf (sortBytes (data.map hf)) 0 (2 ^ (8 * DIGEST_SIZE) - 1) (8 * DIGEST_SIZE - 1)

/-- Bit `i` of a digest in big-endian bit order, exactly as the Go code
extracts it: `hash[i/8] & (1 << (7-i%8)) != 0`. -/
def bitAt (d : List Nat) (i : Nat) : Bool :=
  (d.getD (i / 8) 0).land (1 <<< (7 - i % 8)) != 0

/-- The walk of `SparseMerkleTree.Prove` over a list of bit indices: bit set →
record the left sibling and descend right, bit clear → record the right
sibling and descend left.  Reaching a childless node mid-walk is a nil
dereference in Go (`curr.left.data` with `curr.left == nil`): `none`. -/
def smtWalk (d : List Nat) : List Nat → merkle_node → Option (List (List Nat) × List Bool)
  | [], _ => some ([], [])
  | _ :: _, .leaf _ => none
  | i :: rest, .inner _ l r =>
    if bitAt d i then
      (smtWalk d rest r).map fun p => (merkle_node.data l :: p.1, true :: p.2)
    else
      (smtWalk d rest l).map fun p => (merkle_node.data r :: p.1, false :: p.2)

/-- `SparseMerkleTree.Prove`: walk `8*DIGEST_SIZE - 1 = 255` steps guided by
the bits of `hash(item)`. -/
def SmtProve (t : merkle_node) (item : List Nat) : Option (List (List Nat) × List Bool) :=
  smtWalk (hf item) (List.range (8 * DIGEST_SIZE - 1)) t

/-- `SparseMerkleProof.Verify`: recompute from `hash(item)` over the fixed
index range `8*DIGEST_SIZE - 2 .. 0` (the proof lists of every generated
proof have at least 255 entries; entries past index 254 are ignored). -/
def SmtVerify (hashes : List (List Nat)) (left : List Bool) (root item : List Nat) : Bool :=
  verifyAcc hf (hf item) ((hashes.zip left).take (8 * DIGEST_SIZE - 1)) == root

/-- The walk of `ProveNonIncl`: like the proving walk, but before descending
Go checks whether the required child is nil and breaks at the first such
"virtual" node (in every constructed tree a node has either two children or
none, so the check fires exactly on childless nodes). -/
def smtWalkN (d : List Nat) : List Nat → merkle_node → List (List Nat) × List Bool
  | [], _ => ([], [])
  | _ :: _, .leaf _ => ([], [])
  | i :: rest, .inner _ l r =>
    if bitAt d i then
      let p := smtWalkN d rest r
      (merkle_node.data l :: p.1, true :: p.2)
    else
      let p := smtWalkN d rest l
      (merkle_node.data r :: p.1, false :: p.2)

/-- The padding loop of `ProveNonIncl`, for `j` from `255 - len(hashes)` down
to 0: append `default_digests[j-1]` and the side bit at index `i = 255 - j`.
At `j = 0` Go looks up key `-1` in the map and gets the zero value. -/
def smtPad (d : List Nat) : Nat → List (List Nat) × List Bool
  | 0 => ([zeroDigest], [bitAt d (8 * DIGEST_SIZE - 1)])
  | j + 1 =>
    let p := smtPad d j
    (default_digests hf j :: p.1, bitAt d (8 * DIGEST_SIZE - 1 - (j + 1)) :: p.2)

/-- `SparseMerkleTree.ProveNonIncl`: walk until the first virtual node; if the
walk completed all 255 steps the item is present and the result is nil
(`none`); otherwise pad the remainder with default digests. -/
def SmtProveNonIncl (t : merkle_node) (item : List Nat) :
    Option (List (List Nat) × List Bool) :=
  let d := hf item
  let w := smtWalkN d (List.range (8 * DIGEST_SIZE - 1)) t
  if 8 * DIGEST_SIZE - 1 ≤ w.1.length then none
  else
    let p := smtPad hf d (8 * DIGEST_SIZE - 1 - w.1.length)
    some (w.1 ++ p.1, w.2 ++ p.2)

/-- `SparseMerkleProof.SmtVerifyNonIncl`: identical recombination to inclusion
verification but starting from `default_digests[0]`. -/
def SmtVerifyNonIncl (hashes : List (List Nat)) (left : List Bool) (root item : List Nat) :
    Bool :=
  verifyAcc hf (default_digests hf 0) ((hashes.zip left).take (8 * DIGEST_SIZE - 1)) == root

end SparseMerkleTree

/-! ## Concrete instances used by witnesses and counterexamples -/

/-- A concrete three-leaf Merkle tree over the identity "hash" (no property of
the digest function is involved in the Merkle-tree statements). -/
def mtWitnessTree : merkle_node :=
  (NewMt (fun x => x) [[0], [1], [2]]).getD (.leaf [])

/-- A seven-item MMR over the identity "hash". -/
def mmrWitness7 : List merkle_node :=
  NewMmr (fun x => x) [[0], [1], [2], [3], [4], [5], [6]]

/-- The MMR obtained by inserting one item into a three-item MMR (identity
"hash"); used to witness the merge invariant. -/
def mmrWitness4 : List merkle_node :=
  (Insert (fun x => x) [[3]] (NewMmr (fun x => x) [[0], [1], [2]])).getD []

/-- The MMR obtained by inserting a power-of-two batch into a two-item MMR. -/
def mmrWitness8 : List merkle_node :=
  (Insert (fun x => x) [[2], [3]] (NewMmr (fun x => x) [[0], [1]])).getD []

/-- The SHA-256 digest of the byte string "671" (bytes `0x36 0x37 0x31`):
`00bebc5be79d19e1b8b3f250dc39aebfa9a054baf5f8d61380438d92394c476a`.
Its leading byte is zero and bit 8 (the top bit of the second byte) is set,
which makes the `bytes.Compare`-against-`big.Int.Bytes()` bisection of
`new_smt_inner` place it in a different leaf slot than the big-endian bit
walk visits. -/
def d671 : List Nat :=
  [0, 190, 188, 91, 231, 157, 25, 225, 184, 179, 242, 80, 220, 57, 174, 191,
   169, 160, 84, 186, 245, 248, 214, 19, 128, 67, 141, 146, 57, 76, 71, 106]

/-- A hash function agreeing with SHA-256 on the item "671" — the only item
the SMT counterexamples insert; the placement of the item and the shape of
the walks depend only on this one digest, not on the internal node hashes. -/
def sha671 : List Nat → List Nat := fun _ => d671

/-- A digest with only the most significant bit set. -/
def dTop : List Nat := 128 :: List.replicate 31 0

/-- A digest equal to `dTop` on the first 255 bits, differing in bit 255. -/
def dTopOne : List Nat := 128 :: (List.replicate 30 0 ++ [1])

/-- A hash for the C10 witness: the two items hash to digests that agree on
the 255 most significant bits. -/
def c10hash : List Nat → List Nat := fun s => if s = [1] then dTopOne else dTop

/-! ## Merkle-tree proofs -/

section MtProofs

variable (hf : List Nat → List Nat)

@[simp] lemma data_leaf (d : List Nat) : (merkle_node.leaf d).data = d := rfl

@[simp] lemma data_inner (d : List Nat) (l r : merkle_node) :
    (merkle_node.inner d l r).data = d := rfl

@[simp] lemma size_leaf (d : List Nat) : (merkle_node.leaf d).size = 1 := rfl

@[simp] lemma size_inner (d : List Nat) (l r : merkle_node) :
    (merkle_node.inner d l r).size = l.size + r.size := rfl

/-- A successful search returns a path ending at the searched node. -/
lemma search_getLast : ∀ (t : merkle_node) (item : List Nat) (p : List merkle_node),
    search hf t item = some p → ∃ q, p = q ++ [t]
  | .leaf d, item, p => by
    simp only [search]
    split
    · rintro ⟨rfl⟩
      exact ⟨[], rfl⟩
    · intro h
      exact absurd h (by simp)
  | .inner d l r, item, p => by
    simp only [search]
    cases hl : search hf l item with
    | none =>
      cases hr : search hf r item with
      | none => intro h; exact absurd h (by simp)
      | some pr => rintro ⟨rfl⟩; exact ⟨pr, rfl⟩
    | some pl => rintro ⟨rfl⟩; exact ⟨pl, rfl⟩

/-- A successful search finds a leaf holding `hash(item)`, and the proof the
`Prove` loop assembles from the (reversed) path recombines, step by step, to
the digest of the searched node — provided the tree is hash-consistent, as
every constructed tree is. -/
lemma proveRev_of_search : ∀ (t : merkle_node) (item : List Nat) (q : List merkle_node),
    hashOk hf t = true →
    search hf t item = some (q ++ [t]) →
    ∃ hs ls, proveRev t q.reverse = some (hs, ls) ∧
      verifyAcc hf (hf item) (hs.zip ls) = merkle_node.data t
  | .leaf d, item, q => by
    intro _
    simp only [search]
    split
    case isTrue hd =>
      intro h
      have hq : q = [] := by
        have := congrArg List.length (Option.some.inj h)
        simpa using this
      subst hq
      exact ⟨[], [], rfl, by simp [verifyAcc, hd]⟩
    case isFalse =>
      intro h
      exact absurd h (by simp)
  | .inner d l r, item, q => by
    intro hok
    have hd : d = hf (merkle_node.data l ++ merkle_node.data r) := by
      simp only [hashOk, Bool.and_eq_true, beq_iff_eq] at hok
      exact hok.1.1
    have hokl : hashOk hf l = true := by
      simp only [hashOk, Bool.and_eq_true] at hok
      exact hok.1.2
    have hokr : hashOk hf r = true := by
      simp only [hashOk, Bool.and_eq_true] at hok
      exact hok.2
    simp only [search]
    cases hl : search hf l item with
    | none =>
      cases hr : search hf r item with
      | none =>
        intro h
        exact absurd h (by simp)
      | some pr =>
        rintro h
        have hq : q = pr := by
          have := Option.some.inj h
          exact (List.append_cancel_right this).symm
        rw [hq]
        obtain ⟨qr, rfl⟩ := search_getLast hf r item pr hr
        obtain ⟨hs, ls, hrev, hacc⟩ := proveRev_of_search r item qr hokr hr
        rw [List.reverse_append, List.reverse_cons, List.reverse_nil, List.nil_append,
          List.singleton_append]
        by_cases hdata : merkle_node.data l = merkle_node.data r
        · refine ⟨merkle_node.data r :: hs, false :: ls, ?_, ?_⟩
          · simp [proveRev, hdata, hrev]
          · simp [verifyAcc, hacc, hd, hdata] at hacc ⊢
            simp [hacc, hdata]
        · refine ⟨merkle_node.data l :: hs, true :: ls, ?_, ?_⟩
          · simp [proveRev, hdata, hrev]
          · simp [verifyAcc] at hacc ⊢
            simp [hacc, hd]
    | some pl =>
      rintro h
      have hq : q = pl := by
        have := Option.some.inj h
        exact (List.append_cancel_right this).symm
      rw [hq]
      obtain ⟨ql, rfl⟩ := search_getLast hf l item pl hl
      obtain ⟨hs, ls, hrev, hacc⟩ := proveRev_of_search l item ql hokl hl
      rw [List.reverse_append, List.reverse_cons, List.reverse_nil, List.nil_append,
        List.singleton_append]
      refine ⟨merkle_node.data r :: hs, false :: ls, ?_, ?_⟩
      · simp [proveRev, hrev]
      · simp [verifyAcc] at hacc ⊢
        simp [hacc, hd]

/-- Whenever `search` succeeds on a hash-consistent tree, `Prove` produces a
proof that verifies against the digest of the tree it was produced from. -/
lemma Prove_verify (t : merkle_node) (item : List Nat) (p : List merkle_node)
    (hok : hashOk hf t = true) (hp : search hf t item = some p) :
    ∃ hs ls, Prove hf t item = some (hs, ls) ∧
      MerkleVerify hf hs ls (merkle_node.data t) item = true := by
  obtain ⟨q, rfl⟩ := search_getLast hf t item p hp
  obtain ⟨hs, ls, hrev, hacc⟩ := proveRev_of_search hf t item q hok hp
  refine ⟨hs, ls, ?_, ?_⟩
  · simp only [Prove, hp, List.reverse_append, List.reverse_cons, List.reverse_nil,
      List.nil_append, List.singleton_append]
    exact hrev
  · simp only [MerkleVerify, hacc, beq_self_eq_true]

/-- `search` succeeds exactly when `hash(item)` occurs among the leaf digests. -/
lemma search_isSome_iff : ∀ (t : merkle_node) (item : List Nat),
    (search hf t item).isSome = true ↔ hf item ∈ leafHashes t
  | .leaf d, item => by
    simp only [search, leafHashes, List.mem_singleton]
    split
    case isTrue h => simp [h]
    case isFalse h => simp [Ne.symm h]
  | .inner d l r, item => by
    simp only [search, leafHashes, List.mem_append]
    cases hl : search hf l item with
    | none =>
      cases hr : search hf r item with
      | none =>
        have hL : hf item ∉ leafHashes l := fun hmem => by
          have := (search_isSome_iff l item).2 hmem
          rw [hl] at this
          exact absurd this (by simp)
        have hR : hf item ∉ leafHashes r := fun hmem => by
          have := (search_isSome_iff r item).2 hmem
          rw [hr] at this
          exact absurd this (by simp)
        simp [hL, hR]
      | some pr =>
        have := (search_isSome_iff r item).1 (by simp [hr])
        simp [this]
    | some pl =>
      have := (search_isSome_iff l item).1 (by simp [hl])
      simp [this]

/-- The leaves of a constructed Merkle tree are the hashes of the input items,
in order (stated for the fuelled recursion, for any fuel). -/
lemma leafHashes_NewMtAux : ∀ (fuel : Nat) (data : List (List Nat)) (t : merkle_node),
    NewMtAux hf fuel data = some t → leafHashes t = data.map hf
  | 0, data, t => by intro h; simp [NewMtAux] at h
  | _ + 1, [], t => by intro h; simp [NewMtAux] at h
  | _ + 1, [x], t => by
    rintro ⟨rfl⟩
    simp [leafHashes]
  | fuel + 1, x :: y :: rest, t => by
    simp only [NewMtAux]
    cases h1 : NewMtAux hf fuel ((x :: y :: rest).take ((x :: y :: rest).length / 2)) with
    | none => intro h; exact absurd h (by simp)
    | some l =>
      cases h2 : NewMtAux hf fuel ((x :: y :: rest).drop ((x :: y :: rest).length / 2)) with
      | none => intro h; exact absurd h (by simp)
      | some r =>
        rintro ⟨rfl⟩
        have e1 := leafHashes_NewMtAux fuel _ l h1
        have e2 := leafHashes_NewMtAux fuel _ r h2
        simp only [leafHashes, e1, e2, ← List.map_append, List.take_append_drop]

/-- Every constructed Merkle tree is hash-consistent. -/
lemma hashOk_NewMtAux : ∀ (fuel : Nat) (data : List (List Nat)) (t : merkle_node),
    NewMtAux hf fuel data = some t → hashOk hf t = true
  | 0, data, t => by intro h; simp [NewMtAux] at h
  | _ + 1, [], t => by intro h; simp [NewMtAux] at h
  | _ + 1, [x], t => by
    rintro ⟨rfl⟩
    simp [hashOk]
  | fuel + 1, x :: y :: rest, t => by
    simp only [NewMtAux]
    cases h1 : NewMtAux hf fuel ((x :: y :: rest).take ((x :: y :: rest).length / 2)) with
    | none => intro h; exact absurd h (by simp)
    | some l =>
      cases h2 : NewMtAux hf fuel ((x :: y :: rest).drop ((x :: y :: rest).length / 2)) with
      | none => intro h; exact absurd h (by simp)
      | some r =>
        rintro ⟨rfl⟩
        simp [hashOk, hashOk_NewMtAux fuel _ l h1, hashOk_NewMtAux fuel _ r h2]

/-- The fuelled recursion does not depend on the fuel, as long as it covers
the length of the list. -/
lemma NewMtAux_irrel : ∀ (f1 f2 : Nat) (data : List (List Nat)),
    data.length ≤ f1 → data.length ≤ f2 → NewMtAux hf f1 data = NewMtAux hf f2 data
  | f1, f2, [] => by
    intro _ _
    cases f1 <;> cases f2 <;> simp [NewMtAux]
  | f1, f2, [x] => by
    intro h1 h2
    match f1, f2, h1, h2 with
    | g1 + 1, g2 + 1, _, _ => simp [NewMtAux]
  | f1, f2, x :: y :: rest => by
    intro h1 h2
    simp only [List.length_cons] at h1 h2
    match f1, f2, h1, h2 with
    | g1 + 1, g2 + 1, h1, h2 =>
      simp only [NewMtAux]
      rw [NewMtAux_irrel g1 g2 ((x :: y :: rest).take ((x :: y :: rest).length / 2))
          (by simp only [List.length_take, List.length_cons]; omega)
          (by simp only [List.length_take, List.length_cons]; omega),
        NewMtAux_irrel g1 g2 ((x :: y :: rest).drop ((x :: y :: rest).length / 2))
          (by simp only [List.length_drop, List.length_cons]; omega)
          (by simp only [List.length_drop, List.length_cons]; omega)]

/-- The two-or-more-items equation of `NewMt` in terms of `NewMt` itself. -/
lemma NewMt_cons_cons (x y : List Nat) (rest : List (List Nat)) :
    NewMt hf (x :: y :: rest) =
      match NewMt hf ((x :: y :: rest).take ((x :: y :: rest).length / 2)),
            NewMt hf ((x :: y :: rest).drop ((x :: y :: rest).length / 2)) with
      | some l, some r => some (.inner (hf (merkle_node.data l ++ merkle_node.data r)) l r)
      | _, _ => none := by
  show NewMtAux hf (x :: y :: rest).length (x :: y :: rest) = _
  conv_lhs => rw [show (x :: y :: rest).length = rest.length + 1 + 1 from by simp]
  simp only [NewMtAux]
  rw [NewMtAux_irrel hf (rest.length + 1) ((x :: y :: rest).take ((x :: y :: rest).length / 2)).length
      ((x :: y :: rest).take ((x :: y :: rest).length / 2))
      (by simp only [List.length_take, List.length_cons]; omega) le_rfl,
    NewMtAux_irrel hf (rest.length + 1) ((x :: y :: rest).drop ((x :: y :: rest).length / 2)).length
      ((x :: y :: rest).drop ((x :: y :: rest).length / 2))
      (by simp only [List.length_drop, List.length_cons]; omega) le_rfl]
  rfl

/-- C1 helper: the number of leaves equals `merkle_node.size`. -/
lemma size_eq_leafHashes_length : ∀ t : merkle_node,
    merkle_node.size t = (leafHashes t).length
  | .leaf _ => rfl
  | .inner _ l r => by
    simp only [merkle_node.size, leafHashes, List.length_append,
      size_eq_leafHashes_length l, size_eq_leafHashes_length r]

/-- C1: for every non-empty item list and every item in it, the proof produced
by `MerkleTree.Prove` verifies against the tree's root: the item's hash is
among the leaves, `search` finds a path, and the assembled sibling/side proof
recombines from `hash(item)` back to the root digest — including the
single-item tree, where the path is one leaf and the proof is empty, so the
verifier accepts iff the root equals `hash(item)` directly. -/
theorem c1_merkle_round_trip (hf : List Nat → List Nat) (data : List (List Nat))
    (item : List Nat) (t : merkle_node) (hmem : item ∈ data)
    (ht : NewMt hf data = some t) :
    ∃ hs ls, Prove hf t item = some (hs, ls) ∧
      MerkleVerify hf hs ls (merkle_node.data t) item = true := by
  have hleaf : hf item ∈ leafHashes t := by
    rw [leafHashes_NewMtAux hf data.length data t ht]
    exact List.mem_map_of_mem hf hmem
  have hsome := (search_isSome_iff hf t item).2 hleaf
  obtain ⟨p, hp⟩ := Option.isSome_iff_exists.1 hsome
  exact Prove_verify hf t item p (hashOk_NewMtAux hf data.length data t ht) hp

/-- C1 witness: concrete three-item tree, proving membership of the last item. -/
theorem c1_merkle_round_trip_witness :
    ∃ hs ls, Prove (fun x => x) mtWitnessTree [2] = some (hs, ls) ∧
      MerkleVerify (fun x => x) hs ls (merkle_node.data mtWitnessTree) [2] = true :=
  c1_merkle_round_trip (fun x => x) [[0], [1], [2]] [2] mtWitnessTree (by decide) (by decide)

end MtProofs

/-! ## Mountain-range merge proofs -/

section MergeProofs

variable (hf : List Nat → List Nat)

/-- First-match lookup misses exactly when no entry has the key. -/
lemma lookupSize_none_iff : ∀ (sizes : List (Nat × Nat)) (k : Nat),
    lookupSize sizes k = none ↔ ∀ p ∈ sizes, p.1 ≠ k
  | [], k => by simp [lookupSize]
  | (s, j) :: rest, k => by
    by_cases h : s = k
    · simp [lookupSize, h]
    · simp only [lookupSize, if_neg h, List.mem_cons]
      rw [lookupSize_none_iff rest k]
      constructor
      · rintro hr p (rfl | hp)
        · exact h
        · exact hr p hp
      · intro hr p hp
        exact hr p (Or.inr hp)

/-- Lookup misses the scan entries of a run iff no tree in the run has the
size. -/
lemma lookupSize_sizesEntries_none : ∀ (D : List merkle_node) (i k : Nat),
    lookupSize (sizesEntries D i) k = none ↔ ∀ x ∈ D, merkle_node.size x ≠ k
  | [], i, k => by simp [sizesEntries, lookupSize]
  | e :: D, i, k => by
    by_cases h : merkle_node.size e = k
    · simp [sizesEntries, lookupSize, h]
    · simp only [sizesEntries, lookupSize, if_neg h, List.mem_cons]
      rw [lookupSize_sizesEntries_none D (i + 1) k]
      constructor
      · rintro hr x (rfl | hx)
        · exact h
        · exact hr x hx
      · intro hr x hx
        exact hr x (Or.inr hx)

/-- A hit in the scan entries of a run names a tree of that size inside the
run, at the stated offset. -/
lemma lookupSize_sizesEntries_some : ∀ (D : List merkle_node) (i k j : Nat),
    lookupSize (sizesEntries D i) k = some j →
    ∃ m x, D[m]? = some x ∧ merkle_node.size x = k ∧ j = i + m
  | [], i, k, j => by simp [sizesEntries, lookupSize]
  | e :: D, i, k, j => by
    by_cases h : merkle_node.size e = k
    · simp only [sizesEntries, lookupSize, if_pos h, Option.some.injEq]
      rintro rfl
      exact ⟨0, e, by simp, h, by omega⟩
    · simp only [sizesEntries, lookupSize, if_neg h]
      intro hl
      obtain ⟨m, x, hx, hs, rfl⟩ := lookupSize_sizesEntries_some D (i + 1) k j hl
      exact ⟨m + 1, x, by simpa using hx, hs, by omega⟩

/-- Scanning a run of trees with pairwise-fresh sizes performs no merge: it
only advances the position and extends the size map with the run's entries. -/
lemma mergePass_scan : ∀ (E : List merkle_node) (k i : Nat) (A : List merkle_node)
    (sizes : List (Nat × Nat)) (n : Nat) (merged : Bool),
    (∀ m (hm : m < E.length), A[i + m]? = some (E.get ⟨m, hm⟩)) →
    List.Pairwise (fun a b => merkle_node.size a ≠ merkle_node.size b) E →
    (∀ x ∈ E, ∀ p ∈ sizes, p.1 ≠ merkle_node.size x) →
    mergePass hf (E.length + k) i A sizes n merged =
      mergePass hf k (i + E.length) A (sizes ++ sizesEntries E i) n merged
  | [], k, i, A, sizes, n, merged => by
    intro _ _ _
    simp [sizesEntries]
  | e :: E, k, i, A, sizes, n, merged => by
    intro hget hpw hdisj
    have h0 : A[i]? = some e := by simpa using hget 0 (by simp)
    have hlk : lookupSize sizes (merkle_node.size e) = none :=
      (lookupSize_none_iff sizes _).2 fun p hp => hdisj e (by simp) p hp
    have hstep : (e :: E).length + k = (E.length + k) + 1 := by simp; omega
    rw [hstep]
    simp only [mergePass, h0, hlk]
    have hrec := mergePass_scan E k (i + 1) A (sizes ++ [(merkle_node.size e, i)]) n merged
      (fun m hm => by
        have := hget (m + 1) (by simpa using Nat.succ_lt_succ hm)
        simpa [Nat.add_comm, Nat.add_assoc, Nat.add_left_comm] using this)
      hpw.of_cons
      (fun x hx p hp => by
        rcases List.mem_append.1 hp with hp | hp
        · exact hdisj x (by simp [hx]) p hp
        · rcases List.mem_singleton.1 hp with rfl
          exact (List.pairwise_cons.1 hpw).1 x hx)
    rw [hrec]
    have : i + 1 + E.length = i + (e :: E).length := by simp; omega
    rw [this, List.append_assoc]
    rfl

/-- Removing the just-appended last peak leaves the backing array unchanged
(the in-place copy moves nothing and the tail keeps its value). -/
lemma goRemove_last (D : List merkle_node) (t : merkle_node) :
    goRemove (D ++ [t]) (D.length + 1) D.length = D ++ [t] := by
  have h1 : (D ++ [t]).take D.length = D := List.take_left D [t]
  have h2 : (D ++ [t]).take (D.length + 1) = D ++ [t] :=
    List.take_of_length_le (by simp)
  have h3 : (D ++ [t]).drop (D.length + 1 - 1) = [t] := by
    simp only [Nat.add_sub_cancel]
    exact List.drop_left D [t]
  rw [goRemove, h1, h2, h3]
  simp

/-- Removing index `j` from the first `length D` positions of the backing
array `D ++ [t]`: the elements after `j` shift down one place and the two
trailing positions keep their stale values. -/
lemma goRemove_mid (D : List merkle_node) (t : merkle_node) (j : Nat) (hj : j < D.length) :
    goRemove (D ++ [t]) D.length j =
      D.take j ++ D.drop (j + 1) ++ D.drop (D.length - 1) ++ [t] := by
  have h1 : (D ++ [t]).take j = D.take j := by
    rw [List.take_append_eq_append_take]
    have hz : j - D.length = 0 := by omega
    rw [hz]
    simp
  have h2 : (D ++ [t]).take D.length = D := List.take_left D [t]
  have h3 : (D ++ [t]).drop (D.length - 1) = D.drop (D.length - 1) ++ [t] := by
    rw [List.drop_append_eq_append_drop]
    have hz : D.length - 1 - D.length = 0 := by omega
    rw [hz, List.drop_zero]
  rw [goRemove, h1, h2, h3]
  simp [List.append_assoc]

/-- The merging iteration of a pass, at the last position of the captured
slice, with the size map filled from the distinct-sized prefix: it merges the
new peak with its equal-sized partner, shifts the array, and ends the pass. -/
lemma mergePass_merge (D : List merkle_node) (t : merkle_node) (j : Nat) (x : merkle_node)
    (hpw : List.Pairwise (fun a b => merkle_node.size a ≠ merkle_node.size b) D)
    (hx : D[j]? = some x)
    (hlk : lookupSize (sizesEntries D 0) (merkle_node.size t) = some j) :
    mergePass hf (D.length + 1) 0 (D ++ [t]) [] (D.length + 1) false =
      some (D.take j ++ D.drop (j + 1) ++
          [merkle_node.inner (hf (merkle_node.data x ++ merkle_node.data t)) x t] ++ [t],
        D.length, true) := by
  have hj : j < D.length := by
    rcases List.getElem?_eq_some.1 hx with ⟨h, _⟩
    exact h
  have hscan := mergePass_scan hf D 1 0 (D ++ [t]) [] (D.length + 1) false
    (fun m hm => by
      rw [Nat.zero_add, List.getElem?_append, if_pos hm, List.getElem?_eq_getElem hm,
        List.get_eq_getElem])
    hpw (by simp)
  rw [hscan]
  have hgt : (D ++ [t])[0 + D.length]? = some t := by
    rw [Nat.zero_add, List.getElem?_append, if_neg (lt_irrefl D.length)]
    simp
  have hgx : (D ++ [t])[j]? = some x := by
    rw [List.getElem?_append, if_pos hj]
    exact hx
  simp only [List.nil_append, mergePass, hgt, hlk, hgx]
  rw [if_pos (by omega : j < D.length + 1 ∧ 0 + D.length + 1 ≤ D.length + 1 ∧
      j + 1 ≤ D.length + 1 - 1)]
  have e1 : goRemove (D ++ [t]) (D.length + 1) (0 + D.length) = D ++ [t] := by
    rw [Nat.zero_add]
    exact goRemove_last D t
  rw [e1]
  have e2 : goRemove (D ++ [t]) (D.length + 1 - 1) j =
      D.take j ++ D.drop (j + 1) ++ D.drop (D.length - 1) ++ [t] := by
    rw [Nat.add_sub_cancel]
    exact goRemove_mid D t j hj
  rw [e2]
  have e3 : (D.take j ++ D.drop (j + 1) ++ D.drop (D.length - 1) ++ [t]).take
        (D.length + 1 - 2) = D.take j ++ D.drop (j + 1) := by
    rw [List.append_assoc, List.append_assoc, List.take_append_eq_append_take]
    have hz : D.length + 1 - 2 - (D.take j).length = D.length - 1 - j := by
      simp only [List.length_take]
      omega
    rw [hz, List.take_append_eq_append_take]
    have hz2 : D.length - 1 - j - (D.drop (j + 1)).length = 0 := by
      simp only [List.length_drop]
      omega
    rw [hz2]
    have hz3 : (D.drop (j + 1)).take (D.length - 1 - j) = D.drop (j + 1) :=
      List.take_of_length_le (by simp only [List.length_drop]; omega)
    have hz4 : (D.take j).take (D.length + 1 - 2) = D.take j :=
      List.take_of_length_le (by simp only [List.length_take]; omega)
    rw [hz3, hz4]
    simp [List.append_assoc]
  have e4 : (D.take j ++ D.drop (j + 1) ++ D.drop (D.length - 1) ++ [t]).drop
        (D.length + 1 - 1) = [t] := by
    rw [List.append_assoc, List.append_assoc, List.drop_append_eq_append_drop]
    have hz : (D.take j).drop (D.length + 1 - 1) = [] :=
      List.drop_eq_nil_of_le (by simp only [List.length_take]; omega)
    rw [hz, List.drop_append_eq_append_drop]
    have hz2 : (D.drop (j + 1)).drop (D.length + 1 - 1 - (D.take j).length) = [] :=
      List.drop_eq_nil_of_le (by simp only [List.length_drop, List.length_take]; omega)
    rw [hz2, List.drop_append_eq_append_drop]
    have hz3 : (D.drop (D.length - 1)).drop
        (D.length + 1 - 1 - (D.take j).length - (D.drop (j + 1)).length) = [] :=
      List.drop_eq_nil_of_le (by simp only [List.length_drop, List.length_take]; omega)
    rw [hz3]
    have hz4 : D.length + 1 - 1 - (D.take j).length - (D.drop (j + 1)).length -
        (D.drop (D.length - 1)).length = 0 := by
      simp only [List.length_drop, List.length_take]
      omega
    rw [hz4]
    simp
  rw [e3, e4]
  simp

/-- A pass over a distinct-sized peak list with a fresh new peak makes no
merge and returns the state unchanged. -/
lemma mergePass_nomerge (D : List merkle_node) (t : merkle_node)
    (hpw : List.Pairwise (fun a b => merkle_node.size a ≠ merkle_node.size b) D)
    (hlk : lookupSize (sizesEntries D 0) (merkle_node.size t) = none) :
    mergePass hf (D.length + 1) 0 (D ++ [t]) [] (D.length + 1) false =
      some (D ++ [t], D.length + 1, false) := by
  have hscan := mergePass_scan hf D 1 0 (D ++ [t]) [] (D.length + 1) false
    (fun m hm => by
      rw [Nat.zero_add, List.getElem?_append, if_pos hm, List.getElem?_eq_getElem hm,
        List.get_eq_getElem])
    hpw (by simp)
  rw [hscan]
  have hgt : (D ++ [t])[0 + D.length]? = some t := by
    rw [Nat.zero_add, List.getElem?_append, if_neg (lt_irrefl D.length)]
    simp
  simp only [List.nil_append, mergePass, hgt, hlk]

/-- The fixed point of `merge_peaks` on the states `Insert` produces: a
distinct-sized peak list with one appended peak.  Each merging pass removes
the equal-sized partner and the appended peak and re-appends their merge, so
the loop terminates within the fuel, ends with pairwise-distinct sizes, and
every resulting peak is built from the starting peaks by merging equal-sized
pairs (the transfer property `P`). -/
lemma mergeLoop_spec : ∀ (fuel : Nat) (D : List merkle_node) (t : merkle_node)
    (P : merkle_node → Prop),
    D.length + 1 ≤ fuel →
    List.Pairwise (fun a b => merkle_node.size a ≠ merkle_node.size b) D →
    (∀ x ∈ D, P x) → P t →
    (∀ a b, P a → P b → merkle_node.size a = merkle_node.size b →
      P (merkle_node.inner (hf (merkle_node.data a ++ merkle_node.data b)) a b)) →
    ∃ R, mergeLoop hf fuel (D ++ [t]) = some R ∧
      List.Pairwise (fun a b => merkle_node.size a ≠ merkle_node.size b) R ∧
      ∀ x ∈ R, P x
  | 0, D, t, P => by
    intro hfuel
    exact absurd hfuel (by omega)
  | fuel + 1, D, t, P => by
    intro hfuel hpw hPD hPt hPmerge
    have hlen : (D ++ [t]).length = D.length + 1 := by simp
    rcases hlk : lookupSize (sizesEntries D 0) (merkle_node.size t) with _ | j
    · refine ⟨D ++ [t], ?_, ?_, ?_⟩
      · simp only [mergeLoop, hlen, mergePass_nomerge hf D t hpw hlk]
        simp [List.take_of_length_le (le_of_eq hlen)]
      · rw [List.pairwise_append]
        refine ⟨hpw, List.pairwise_singleton _ _, ?_⟩
        intro a ha b hb
        rcases List.mem_singleton.1 hb with rfl
        exact (lookupSize_sizesEntries_none D 0 (merkle_node.size b)).1 hlk a ha
      · intro y hy
        rcases List.mem_append.1 hy with hy | hy
        · exact hPD y hy
        · rcases List.mem_singleton.1 hy with rfl
          exact hPt
    · obtain ⟨m, x, hxm0, hsz, hjm⟩ :=
        lookupSize_sizesEntries_some D 0 (merkle_node.size t) j hlk
      have hxm : D[j]? = some x := by
        rw [show j = m from by omega]
        exact hxm0
      have hmlt : j < D.length := (List.getElem?_eq_some.1 hxm).1
      have hxmem : x ∈ D := by
        rcases List.getElem?_eq_some.1 hxm with ⟨hlt, heq⟩
        exact heq ▸ List.getElem_mem hlt
      have hpass := mergePass_merge hf D t j x hpw hxm hlk
      have hD2pw : List.Pairwise (fun a b => merkle_node.size a ≠ merkle_node.size b)
          (D.take j ++ D.drop (j + 1)) := by
        rw [← List.eraseIdx_eq_take_drop_succ]
        exact hpw.sublist (List.eraseIdx_sublist D j)
      have hD2mem : ∀ y ∈ D.take j ++ D.drop (j + 1), y ∈ D := by
        intro y hy
        rw [← List.eraseIdx_eq_take_drop_succ] at hy
        exact (List.eraseIdx_sublist D j).mem hy
      obtain ⟨R, hR, hRpw, hRP⟩ := mergeLoop_spec fuel (D.take j ++ D.drop (j + 1))
        (merkle_node.inner (hf (merkle_node.data x ++ merkle_node.data t)) x t) P
        (by simp only [List.length_append, List.length_take, List.length_drop]; omega)
        hD2pw
        (fun y hy => hPD y (hD2mem y hy))
        (hPmerge x t (hPD x hxmem) hPt hsz)
        hPmerge
      refine ⟨R, ?_, hRpw, hRP⟩
      simp only [mergeLoop, hlen, hpass]
      have e5 : (D.take j ++ D.drop (j + 1) ++
          [merkle_node.inner (hf (merkle_node.data x ++ merkle_node.data t)) x t] ++
          [t]).take D.length =
          D.take j ++ D.drop (j + 1) ++
            [merkle_node.inner (hf (merkle_node.data x ++ merkle_node.data t)) x t] := by
        have hlenL : (D.take j ++ D.drop (j + 1) ++
            [merkle_node.inner (hf (merkle_node.data x ++ merkle_node.data t)) x t]).length
            = D.length := by
          simp only [List.length_append, List.length_take, List.length_drop,
            List.length_singleton]
          omega
        rw [← hlenL, List.take_left]
      rw [e5]
      exact hR

end MergeProofs

/-! ## MMR construction proofs -/

section MmrProofs

variable (hf : List Nat → List Nat)

/-- `NewMt` succeeds on every non-empty list (with enough fuel). -/
lemma NewMtAux_isSome : ∀ (fuel : Nat) (data : List (List Nat)),
    data ≠ [] → data.length ≤ fuel → (NewMtAux hf fuel data).isSome = true
  | 0, data => by
    intro hne hlen
    exact absurd (List.eq_nil_of_length_eq_zero (by omega)) hne
  | _ + 1, [] => by intro hne _; exact absurd rfl hne
  | _ + 1, [x] => by intro _ _; simp [NewMtAux]
  | fuel + 1, x :: y :: rest => by
    intro _ hlen
    simp only [List.length_cons] at hlen
    have hl0 := NewMtAux_isSome fuel ((x :: y :: rest).take ((x :: y :: rest).length / 2))
      (by
        intro hcon
        have := congrArg List.length hcon
        simp only [List.length_take, List.length_cons, List.length_nil] at this
        omega)
      (by simp only [List.length_take, List.length_cons]; omega)
    have hr0 := NewMtAux_isSome fuel ((x :: y :: rest).drop ((x :: y :: rest).length / 2))
      (by
        intro hcon
        have := congrArg List.length hcon
        simp only [List.length_drop, List.length_cons, List.length_nil] at this
        omega)
      (by simp only [List.length_drop, List.length_cons]; omega)
    obtain ⟨l, hl⟩ := Option.isSome_iff_exists.1 hl0
    obtain ⟨r, hr⟩ := Option.isSome_iff_exists.1 hr0
    simp only [List.length_cons] at hl hr
    simp [NewMtAux, hl, hr]

/-- The size of a constructed Merkle tree is the number of items. -/
lemma size_NewMt (data : List (List Nat)) (t : merkle_node) (h : NewMt hf data = some t) :
    merkle_node.size t = data.length := by
  rw [size_eq_leafHashes_length, leafHashes_NewMtAux hf data.length data t h,
    List.length_map]

/-- A Merkle tree over `2 ^ k` items exists and is perfect. -/
lemma NewMt_perfect_pow2 : ∀ (k : Nat) (data : List (List Nat)), data.length = 2 ^ k →
    ∃ t, NewMt hf data = some t ∧ isPerfect t = true ∧ merkle_node.size t = 2 ^ k
  | 0, data => by
    intro hlen
    rw [pow_zero] at hlen
    rcases data with _ | ⟨x, _ | ⟨y, rest⟩⟩
    · simp at hlen
    · exact ⟨.leaf (hf x), rfl, rfl, rfl⟩
    · simp at hlen
  | k + 1, data => by
    intro hlen
    have h2le : (2 : Nat) ≤ 2 ^ (k + 1) := by
      calc (2 : Nat) = 2 ^ 1 := (pow_one 2).symm
      _ ≤ 2 ^ (k + 1) := Nat.pow_le_pow_right (by omega) (by omega)
    rcases data with _ | ⟨x, _ | ⟨y, rest⟩⟩
    · rw [List.length_nil] at hlen; omega
    · rw [List.length_singleton] at hlen; omega
    · have hhalf : (x :: y :: rest).length / 2 = 2 ^ k := by
        rw [hlen, pow_succ]
        omega
      have htake : ((x :: y :: rest).take ((x :: y :: rest).length / 2)).length = 2 ^ k := by
        simp only [List.length_take, hhalf, hlen, pow_succ]
        omega
      have hdrop : ((x :: y :: rest).drop ((x :: y :: rest).length / 2)).length = 2 ^ k := by
        simp only [List.length_drop, hhalf, hlen, pow_succ]
        omega
      obtain ⟨l, hl, hlp, hls⟩ := NewMt_perfect_pow2 k _ htake
      obtain ⟨r, hr, hrp, hrs⟩ := NewMt_perfect_pow2 k _ hdrop
      refine ⟨.inner (hf (merkle_node.data l ++ merkle_node.data r)) l r, ?_, ?_, ?_⟩
      · rw [NewMt_cons_cons, hl, hr]
      · simp [isPerfect, hlp, hrp, hls, hrs]
      · simp only [size_inner, hls, hrs, pow_succ]
        omega

/-- The master lemma for `NewMmr`: with the data length congruent to
`n mod 2^(i+1)`, the loop from bit `i` produces one peak of size `2^b` per
set bit `b ≤ i` of `n`, from the highest bit down, consuming the items in
order; every peak is hash-consistent and perfect. -/
lemma mmrLoop_spec : ∀ (i n : Nat) (data : List (List Nat)),
    data.length = n % 2 ^ (i + 1) →
    ((mmrLoop hf n i data).map merkle_node.size
        = (((List.range (i + 1)).filter (fun b => n.testBit b)).reverse).map (2 ^ ·)
      ∧ ((mmrLoop hf n i data).map leafHashes).flatten = data.map hf
      ∧ ∀ t ∈ mmrLoop hf n i data, hashOk hf t = true ∧ isPerfect t = true)
  | 0, n, data => by
    intro hlen
    rw [pow_one] at hlen
    by_cases hb : n % 2 = 1
    · have hbt : n.testBit 0 = true := by
        rw [Nat.testBit_to_div_mod]
        simpa using hb
      have hlen1 : data.length = 1 := by omega
      rcases data with _ | ⟨x, _ | ⟨y, rest⟩⟩
      · simp at hlen1
      · refine ⟨?_, ?_, ?_⟩
        · simp [mmrLoop, hbt, NewMt, NewMtAux, List.range_succ]
        · simp [mmrLoop, hbt, NewMt, NewMtAux, leafHashes]
        · intro t ht
          simp only [mmrLoop, hbt, if_true, List.take_one, List.head?_cons, NewMt, NewMtAux,
            List.length_singleton, Option.toList_some, List.mem_singleton] at ht
          subst ht
          exact ⟨rfl, rfl⟩
      · simp at hlen1
    · have hb0 : n % 2 = 0 := by omega
      have hbt : n.testBit 0 = false := by
        rw [Nat.testBit_to_div_mod]
        simpa using hb0
      have hdata : data = [] := List.eq_nil_of_length_eq_zero (by omega)
      subst hdata
      refine ⟨?_, ?_, ?_⟩
      · simp [mmrLoop, hbt, List.range_succ]
      · simp [mmrLoop, hbt]
      · intro t ht
        simp [mmrLoop, hbt] at ht
  | i + 1, n, data => by
    intro hlen
    have hmod : n % 2 ^ (i + 1 + 1) = n % 2 ^ (i + 1) + 2 ^ (i + 1) * (n / 2 ^ (i + 1) % 2) := by
      have h2 : (2 : Nat) ^ (i + 1 + 1) = 2 ^ (i + 1) * 2 := by rw [pow_succ]
      rw [h2, Nat.mod_mul]
    by_cases hb : n / 2 ^ (i + 1) % 2 = 1
    · have hbt : n.testBit (i + 1) = true := by
        rw [Nat.testBit_to_div_mod]
        simpa using hb
      have hlen2 : data.length = n % 2 ^ (i + 1) + 2 ^ (i + 1) := by
        rw [hlen, hmod, hb, Nat.mul_one]
      have hmodlt : n % 2 ^ (i + 1) < 2 ^ (i + 1) :=
        Nat.mod_lt n (Nat.pos_pow_of_pos _ (by omega))
      have htake : (data.take (2 ^ (i + 1))).length = 2 ^ (i + 1) := by
        simp only [List.length_take]
        omega
      have hdrop : (data.drop (2 ^ (i + 1))).length = n % 2 ^ (i + 1) := by
        simp only [List.length_drop]
        omega
      obtain ⟨t, ht, htp, hts⟩ := NewMt_perfect_pow2 hf (i + 1) _ htake
      obtain ⟨e1, e2, e3⟩ := mmrLoop_spec i n (data.drop (2 ^ (i + 1))) hdrop
      have hok : hashOk hf t = true := hashOk_NewMtAux hf _ _ t ht
      have hleaves : leafHashes t = (data.take (2 ^ (i + 1))).map hf :=
        leafHashes_NewMtAux hf _ _ t ht
      have hloop : mmrLoop hf n (i + 1) data = t :: mmrLoop hf n i (data.drop (2 ^ (i + 1))) := by
        simp [mmrLoop, hbt, ht]
      have hrhs : (((List.range (i + 1 + 1)).filter (fun b => n.testBit b)).reverse).map (2 ^ ·)
          = 2 ^ (i + 1) :: (((List.range (i + 1)).filter (fun b => n.testBit b)).reverse).map (2 ^ ·) := by
        rw [List.range_succ, List.filter_append, List.reverse_append]
        simp [hbt]
      refine ⟨?_, ?_, ?_⟩
      · rw [hrhs, hloop, List.map_cons, e1, hts]
      · rw [hloop, List.map_cons, List.flatten_cons, e2, hleaves, ← List.map_append,
          List.take_append_drop]
      · intro u hu
        rw [hloop] at hu
        rcases List.mem_cons.1 hu with rfl | hu
        · exact ⟨hok, htp⟩
        · exact e3 u hu
    · have hb0 : n / 2 ^ (i + 1) % 2 = 0 := by omega
      have hbt : n.testBit (i + 1) = false := by
        rw [Nat.testBit_to_div_mod]
        simpa using hb0
      have hlen2 : data.length = n % 2 ^ (i + 1) := by
        rw [hlen, hmod, hb0, Nat.mul_zero, Nat.add_zero]
      obtain ⟨e1, e2, e3⟩ := mmrLoop_spec i n data hlen2
      have hloop : mmrLoop hf n (i + 1) data = mmrLoop hf n i data := by
        simp [mmrLoop, hbt]
      have hrhs : (((List.range (i + 1 + 1)).filter (fun b => n.testBit b)).reverse).map (2 ^ ·)
          = (((List.range (i + 1)).filter (fun b => n.testBit b)).reverse).map (2 ^ ·) := by
        rw [List.range_succ, List.filter_append, List.reverse_append]
        simp [hbt]
      refine ⟨?_, ?_, ?_⟩
      · rw [hrhs, hloop, e1]
      · rw [hloop]
        exact e2
      · rw [hloop]
        exact e3

end MmrProofs

/-! ## MMR claim theorems -/

section MmrClaims

variable (hf : List Nat → List Nat)

/-- The structural logarithm agrees with `Nat.log2`. -/
lemma log2Aux_eq : ∀ (fuel n : Nat), n ≤ fuel → log2Aux fuel n = Nat.log2 n
  | 0, n => by
    intro h
    have hn : n = 0 := by omega
    subst hn
    simp [log2Aux, Nat.log2]
  | fuel + 1, n => by
    intro h
    by_cases h2 : 2 ≤ n
    · rw [log2Aux, if_pos h2, log2Aux_eq fuel (n / 2) (by omega)]
      conv_rhs => rw [Nat.log2]
      rw [if_pos h2]
    · rw [log2Aux, if_neg h2]
      conv_rhs => rw [Nat.log2]
      rw [if_neg h2]

/-- `NewMmr` corollary of the loop lemma. -/
lemma NewMmr_spec (data : List (List Nat)) :
    ((NewMmr hf data).map merkle_node.size
        = (((List.range (Nat.log2 data.length + 1)).filter
            (fun b => data.length.testBit b)).reverse).map (2 ^ ·)
      ∧ ((NewMmr hf data).map leafHashes).flatten = data.map hf
      ∧ ∀ t ∈ NewMmr hf data, hashOk hf t = true ∧ isPerfect t = true) := by
  rw [NewMmr, log2Aux_eq data.length data.length le_rfl]
  apply mmrLoop_spec
  rcases Nat.eq_zero_or_pos data.length with h0 | hpos
  · rw [h0]
    simp
  · exact (Nat.mod_eq_of_lt Nat.lt_log2_self).symm

/-- The peak sizes of a fresh MMR strictly decrease. -/
lemma NewMmr_sizes_desc (data : List (List Nat)) :
    List.Pairwise (· > ·) ((NewMmr hf data).map merkle_node.size) := by
  rw [(NewMmr_spec hf data).1, List.pairwise_map, List.pairwise_reverse]
  have hlt : List.Pairwise (· < ·)
      ((List.range (Nat.log2 data.length + 1)).filter (fun b => data.length.testBit b)) :=
    (List.pairwise_lt_range _).filter _
  exact hlt.imp fun hab => Nat.pow_lt_pow_right Nat.one_lt_two hab

/-- The invariant of every reachable MMR: pairwise-distinct peak sizes and
hash-consistent peaks. -/
lemma reachable_inv (m : List merkle_node) (h : ReachableMmr hf m) :
    List.Pairwise (fun a b => merkle_node.size a ≠ merkle_node.size b) m ∧
      ∀ t ∈ m, hashOk hf t = true := by
  induction h with
  | base data =>
    refine ⟨?_, fun t ht => ((NewMmr_spec hf data).2.2 t ht).1⟩
    have := NewMmr_sizes_desc hf data
    rw [List.pairwise_map] at this
    exact this.imp fun hab => by omega
  | step m items m2 hreach hins ih =>
    rcases hNew : NewMt hf items with _ | t
    · rw [Insert, hNew] at hins
      cases hins
    · rw [Insert, hNew] at hins
      have hins2 : mergeLoop hf (m.length + 2) (m ++ [t]) = some m2 := hins
      obtain ⟨R, hR, hRpw, hRP⟩ := mergeLoop_spec hf (m.length + 2) m t
        (fun x => hashOk hf x = true) (by omega) ih.1 ih.2
        (hashOk_NewMtAux hf items.length items t hNew)
        (fun a b ha hb _ => by simp [hashOk, ha, hb])
      rw [hR] at hins2
      cases hins2
      exact ⟨hRpw, hRP⟩

/-- C4: after construction and any sequence of successful `Insert` calls, no
two peaks of the MMR have equal leaf count — each `Insert` appends one tree
and the merge loop then repeatedly merges the only equal-sized pair (always
found at the end of the scan) until a clean pass, so the fixed point has
pairwise-distinct peak sizes regardless of how the cascade interleaved. -/
theorem c4_mmr_merge_invariant (hf : List Nat → List Nat) (m : List merkle_node)
    (h : ReachableMmr hf m) :
    List.Pairwise (fun a b => merkle_node.size a ≠ merkle_node.size b) m :=
  (reachable_inv hf m h).1

/-- C4 witness: a three-item MMR with one inserted item, whose merges cascade
to peaks of sizes 4 only. -/
theorem c4_mmr_merge_invariant_witness :
    List.Pairwise (fun a b => merkle_node.size a ≠ merkle_node.size b) mmrWitness4 :=
  c4_mmr_merge_invariant (fun x => x) mmrWitness4
    (ReachableMmr.step _ [[3]] _ (ReachableMmr.base [[0], [1], [2]]) (by decide))

/-- C6: the peaks of `NewMmr` realize the binary decomposition of the item
count `n`: the peak sizes are exactly `2^b` for the set bits `b` of `n`, in
decreasing bit order; the peaks consume the items in their original order
(their concatenated leaves are the item hashes in order); the sizes sum to
`n` and strictly decrease. -/
theorem c6_mmr_binary_decomposition (hf : List Nat → List Nat) (data : List (List Nat)) :
    (NewMmr hf data).map merkle_node.size
        = (((List.range (Nat.log2 data.length + 1)).filter
            (fun b => data.length.testBit b)).reverse).map (2 ^ ·)
      ∧ ((NewMmr hf data).map leafHashes).flatten = data.map hf
      ∧ ((NewMmr hf data).map merkle_node.size).sum = data.length
      ∧ List.Pairwise (· > ·) ((NewMmr hf data).map merkle_node.size) := by
  obtain ⟨h1, h2, _⟩ := NewMmr_spec hf data
  refine ⟨h1, h2, ?_, NewMmr_sizes_desc hf data⟩
  have hsz : (NewMmr hf data).map merkle_node.size
      = ((NewMmr hf data).map leafHashes).map List.length := by
    rw [List.map_map]
    exact List.map_congr_left fun t _ => size_eq_leafHashes_length t
  rw [hsz, ← List.length_flatten, h2, List.length_map]

/-- C9: construction on empty input does not fail: `NewMt` of an empty list
returns the defined absent result (nil), and `NewMmr` of an empty list is a
valid MMR with zero peaks. -/
theorem c9_empty_construction (hf : List Nat → List Nat) :
    NewMt hf [] = none ∧ NewMmr hf [] = [] :=
  ⟨rfl, rfl⟩

/-- C7 helper: on hash-consistent peaks, `MerkleMountainRange.Prove` delegates
to the first peak containing the item and the resulting proof verifies
against that peak digest. -/
lemma mmrProve_verify : ∀ (peaks : List merkle_node) (item : List Nat),
    (∀ t ∈ peaks, hashOk hf t = true) →
    (∃ t ∈ peaks, hf item ∈ leafHashes t) →
    ∃ hs ls t0, MmrProve hf peaks item = some (hs, ls) ∧ t0 ∈ peaks ∧
      MerkleVerify hf hs ls (merkle_node.data t0) item = true
  | [], item => by
    rintro _ ⟨t, ht, _⟩
    simp at ht
  | t :: rest, item => by
    intro hok hex
    by_cases hs : (search hf t item).isSome = true
    · obtain ⟨p, hp⟩ := Option.isSome_iff_exists.1 hs
      obtain ⟨hs2, ls2, hPr, hV⟩ := Prove_verify hf t item p (hok t (by simp)) hp
      refine ⟨hs2, ls2, t, ?_, by simp, hV⟩
      simp [MmrProve, hs, hPr]
    · have hnot : hf item ∉ leafHashes t := fun hmem =>
        hs ((search_isSome_iff hf t item).2 hmem)
      have hex2 : ∃ u ∈ rest, hf item ∈ leafHashes u := by
        rcases hex with ⟨u, hu, hmem⟩
        rcases List.mem_cons.1 hu with rfl | hu
        · exact absurd hmem hnot
        · exact ⟨u, hu, hmem⟩
      obtain ⟨hs2, ls2, t0, hPr, ht0, hV⟩ := mmrProve_verify rest item
        (fun u hu => hok u (by simp [hu])) hex2
      refine ⟨hs2, ls2, t0, ?_, by simp [ht0], hV⟩
      simp only [MmrProve, hPr]
      rw [if_neg (by simp [Option.isSome] at hs ⊢; exact hs)]

/-- C7: `MmrProof.Verify` succeeds iff the Merkle verification succeeds
against at least one of the given peak digests; consequently, for every item
present in an MMR the library built, the proof produced by
`MerkleMountainRange.Prove` verifies against `Peaks()`. -/
theorem c7_mmr_verify (hf : List Nat → List Nat) :
    (∀ hashes left peaks item,
        MmrVerify hf hashes left peaks item = true ↔
          ∃ pk ∈ peaks, MerkleVerify hf hashes left pk item = true) ∧
    (∀ m item, ReachableMmr hf m → (∃ t ∈ m, hf item ∈ leafHashes t) →
      ∃ hashes left, MmrProve hf m item = some (hashes, left) ∧
        MmrVerify hf hashes left (Peaks m) item = true) := by
  constructor
  · intro hs ls peaks item
    simp [MmrVerify, List.any_eq_true]
  · intro m item hreach hex
    obtain ⟨hs, ls, t0, hprove, ht0, hverify⟩ :=
      mmrProve_verify hf m item (reachable_inv hf m hreach).2 hex
    refine ⟨hs, ls, hprove, ?_⟩
    rw [MmrVerify, List.any_eq_true]
    exact ⟨merkle_node.data t0, List.mem_map_of_mem merkle_node.data ht0, hverify⟩

/-- C7 witness: membership proof for item 5 in the seven-item MMR. -/
theorem c7_mmr_verify_witness :
    ∃ hashes left, MmrProve (fun x => x) mmrWitness7 [5] = some (hashes, left) ∧
      MmrVerify (fun x => x) hashes left (Peaks mmrWitness7) [5] = true :=
  (c7_mmr_verify (fun x => x)).2 mmrWitness7 [5]
    (ReachableMmr.base [[0], [1], [2], [3], [4], [5], [6]]) (by decide)

/-- C8 counterexample: `Insert` with a batch of three items produces a peak
with three leaves, which is not a power of two, so the claimed invariant is
not preserved for arbitrary batch sizes. -/
theorem c8_counterexample :
    ∃ m2, Insert (fun x => x) [[0], [1], [2]] [] = some m2 ∧
      ∃ t ∈ m2, ∀ k : Nat, merkle_node.size t ≠ 2 ^ k := by
  refine ⟨[mtWitnessTree], by decide, mtWitnessTree, by decide, ?_⟩
  intro k
  have h3 : merkle_node.size mtWitnessTree = 3 := by decide
  rw [h3]
  rcases k with _ | _ | k
  · decide
  · decide
  · have h4 : (4 : Nat) ≤ 2 ^ (k + 2) := by
      calc (4 : Nat) = 2 ^ 2 := rfl
      _ ≤ 2 ^ (k + 2) := Nat.pow_le_pow_right (by omega) (by omega)
    omega

/-- C8 (amended): every peak of a fresh MMR is a perfect Merkle tree over a
power-of-two number of leaves, and `Insert` preserves this provided the
inserted batch has power-of-two size (together with the at-rest distinct-size
invariant).  The unrestricted claim fails: see the counterexample, where a
batch of three items becomes a three-leaf peak. -/
theorem c8_peaks_perfect (hf : List Nat → List Nat) :
    (∀ data, ∀ t ∈ NewMmr hf data, isPerfect t = true) ∧
    (∀ peaks items k m2,
      List.Pairwise (fun a b => merkle_node.size a ≠ merkle_node.size b) peaks →
      (∀ t ∈ peaks, isPerfect t = true) →
      items.length = 2 ^ k →
      Insert hf items peaks = some m2 →
      ∀ t ∈ m2, isPerfect t = true) := by
  constructor
  · intro data t ht
    exact ((NewMmr_spec hf data).2.2 t ht).2
  · intro peaks items k m2 hpw hperf hlen hins
    obtain ⟨t, ht, htp, hts⟩ := NewMt_perfect_pow2 hf k items hlen
    rw [Insert, ht] at hins
    have hins2 : mergeLoop hf (peaks.length + 2) (peaks ++ [t]) = some m2 := hins
    obtain ⟨R, hR, hRpw, hRP⟩ := mergeLoop_spec hf (peaks.length + 2) peaks t
      (fun x => isPerfect x = true) (by omega) hpw hperf htp
      (fun a b ha hb hsz => by simp [isPerfect, ha, hb, hsz])
    rw [hR] at hins2
    cases hins2
    exact hRP

/-- C8 amended witness: inserting a two-item batch into a two-item MMR leaves
only perfect peaks. -/
theorem c8_peaks_perfect_witness : ∀ t ∈ mmrWitness8, isPerfect t = true :=
  (c8_peaks_perfect (fun x => x)).2 (NewMmr (fun x => x) [[0], [1]]) [[2], [3]] 1 mmrWitness8
    (by decide) (by decide) (by decide) (by decide)

/-- C5 (code bug): when no leaf digest matches `hash(item)`, `search` returns
nil — and `MerkleTree.Prove` then evaluates `path[len(path)-1]` on the nil
path, which is a run-time panic (modelled by `none`), not the documented
absent result. -/
theorem c5_prove_absent_panics (hf : List Nat → List Nat) (t : merkle_node)
    (item : List Nat) (h : hf item ∉ leafHashes t) :
    search hf t item = none ∧ Prove hf t item = none := by
  have hnone : search hf t item = none := by
    rcases hsr : search hf t item with _ | p
    · rfl
    · exact absurd ((search_isSome_iff hf t item).1 (by simp [hsr])) h
  exact ⟨hnone, by simp [Prove, hnone]⟩

/-- C5 witness: proving an absent item on the concrete three-leaf tree. -/
theorem c5_prove_absent_panics_witness :
    search (fun x => x) mtWitnessTree [9] = none ∧
      Prove (fun x => x) mtWitnessTree [9] = none :=
  c5_prove_absent_panics (fun x => x) mtWitnessTree [9] (by decide)

end MmrClaims

/-! ## SMT claim theorems -/

section SmtClaims

/-- C10: the inclusion walk of `SparseMerkleTree.Prove` inspects only bits
`0 .. 254` (the 255 most significant bits) of `hash(item)`, so two items
whose hashes agree on those bits receive identical proofs from any tree —
whether the walk succeeds or dereferences nil; and at height 0 the
construction keeps only the first digest of the (sorted) candidates, so of
two hashes sharing a 255-bit prefix only the first survives. -/
theorem c10_smt_msb_only (hf : List Nat → List Nat) :
    (∀ (t : merkle_node) (a b : List Nat),
        (∀ i, i < 8 * DIGEST_SIZE - 1 → bitAt (hf a) i = bitAt (hf b) i) →
        SmtProve hf t a = SmtProve hf t b) ∧
    (∀ (d : List Nat) (ds : List (List Nat)) (lo hi : Nat),
        new_smt_inner hf (d :: ds) lo hi 0 = merkle_node.leaf d) := by
  constructor
  · intro t a b hbits
    have walk : ∀ (steps : List Nat),
        (∀ i ∈ steps, bitAt (hf a) i = bitAt (hf b) i) →
        ∀ u : merkle_node, smtWalk (hf a) steps u = smtWalk (hf b) steps u := by
      intro steps
      induction steps with
      | nil => intro _ u; rfl
      | cons i rest ih =>
        intro hmem u
        cases u with
        | leaf d => rfl
        | inner d l r =>
          have hbi : bitAt (hf a) i = bitAt (hf b) i := hmem i (by simp)
          have ihl := ih (fun j hj => hmem j (by simp [hj])) l
          have ihr := ih (fun j hj => hmem j (by simp [hj])) r
          simp only [smtWalk, hbi, ihl, ihr]
    exact walk (List.range (8 * DIGEST_SIZE - 1))
      (fun i hi => hbits i (List.mem_range.1 hi)) t
  · intro d ds lo hi
    rfl

/-- C10 witness: two items whose digests differ only in the least significant
bit get the same proof, and a height-0 range keeps its first digest. -/
theorem c10_smt_msb_only_witness :
    SmtProve c10hash (NewSmt c10hash [[0]]) [0] = SmtProve c10hash (NewSmt c10hash [[0]]) [1] ∧
      new_smt_inner c10hash [dTop] 0 7 0 = merkle_node.leaf dTop :=
  ⟨(c10_smt_msb_only c10hash).1 (NewSmt c10hash [[0]]) [0] [1] (by decide),
    (c10_smt_msb_only c10hash).2 dTop [] 0 7⟩

/-- C2 (code bug): inserting the single item "671" — whose SHA-256 digest is
`d671`, with a zero leading byte — and then proving its inclusion crashes:
`new_smt_inner` compares the 32-byte digest against the *minimal* big-endian
bytes of the midpoint (`bytes.Compare(h[:], mid.Bytes())`), which is not the
numeric comparison the specification requires once `mid < 2^248`, so from
bisection depth 8 onwards the item is always sent left regardless of its
bits.  The walk of `Prove` follows bit 8 (= 1) to the right into a default
node and on the next step dereferences nil children: the round-trip
`Verify(Prove(item), Root(), item)` cannot even be evaluated.  (`none` models
the Go nil-pointer panic.) -/
theorem c2_smt_inclusion_crashes :
    SmtProve sha671 (NewSmt sha671 [[54, 55, 49]]) [54, 55, 49] = none := by
  decide

/-- C3 (code bug): for the same single-item tree, `ProveNonIncl` applied to
the *inserted* item "671" returns a padded non-inclusion proof instead of the
absent result the claim requires: the walk follows the bits of the digest,
leaves the (misplaced) materialized path at depth 9, hits a virtual node and
pads the remainder with default digests. -/
theorem c3_nonincl_on_inserted_returns_proof :
    (SmtProveNonIncl sha671 (NewSmt sha671 [[54, 55, 49]]) [54, 55, 49]).isSome = true := by
  decide

end SmtClaims

end gomerkle
